import Mathlib

/-!
Verification of the action-execution engine of the tool-meister repository.

Strings are modelled as `List Char` (`Str`).  The definitions below are shallow
embeddings of the Rust source:

* `replaceList` models `str::replace` (left-to-right, non-overlapping
  replacement) for the nonempty patterns the program uses;
* `Config.interpolate` models `Config::interpolate` in `src/config.rs`
  (replace the URL token first, then the name token);
* `fullCommand`, `classifyCommand`, `shouldSpawn`, `actionMode` and
  `executeActionsFrom` model `execute_actions` in `src/commands.rs`, with
  subprocess outcomes supplied by a `Behavior` oracle indexed by the number of
  processes launched so far.
-/

namespace ToolMeister

abbrev Str := List Char

/-- Left-to-right non-overlapping replacement of `pat` by `rep`, as Rust
`str::replace` behaves for nonempty patterns (the program only uses the two
fixed nonempty placeholder tokens).  `fuel` bounds the recursion so that the
definition is structural; `replaceList` supplies `s.length`, which is enough
fuel because every step consumes at least one character of `s`. -/
def replaceListGo (pat rep : Str) : Nat → Str → Str
  | _, [] => []
  | 0, s => s
  | fuel + 1, c :: cs =>
    if pat.isPrefixOf (c :: cs) then
      rep ++ replaceListGo pat rep fuel (List.drop pat.length (c :: cs))
    else
      c :: replaceListGo pat rep fuel cs

/-- Rust `str::replace pat -> rep` on `s`, for nonempty `pat`. -/
def replaceList (pat rep s : Str) : Str :=
  replaceListGo pat rep s.length s

/-- `repo.default_branch` in `src/config.rs` (`Branch`). -/
structure Branch where
  name : Str

/-- `Repository` in `src/config.rs`. -/
structure Repository where
  name : Str
  url : Str
  default_branch : Branch

/-- `Dependency` in `src/config.rs`. -/
structure Dependency where
  name : Str
  version : Str
  url : Str

/-- One lifecycle step, `Action` in `src/config.rs`. -/
structure Action where
  seq_id : Nat
  name : Option Str
  command : Str
  description : Str
  spawn : Bool

/-- The four action lists, `Actions` in `src/config.rs`. -/
structure Actions where
  installation : List Action
  update : List Action
  build : List Action
  run : List Action

/-- `Config` in `src/config.rs`. -/
structure Config where
  repo : Repository
  dependencies : List Dependency
  actions : Actions
  info_args : List Str

/-- The URL placeholder token of `Config::interpolate`. -/
def urlToken : Str := "[[repo.url]]".data

/-- The name placeholder token of `Config::interpolate`. -/
def nameToken : Str := "[[repo.name]]".data

/-- `Config::interpolate` in `src/config.rs`: replace the URL token by
`repo.url`, then, in the result of that pass, the name token by `repo.name`. -/
def Config.interpolate (c : Config) (text : Str) : Str :=
  replaceList nameToken c.repo.name (replaceList urlToken c.repo.url text)

/-- Rust slice `join(sep)`: the elements separated by `sep`. -/
def joinWith (sep : Str) : List Str → Str
  | [] => []
  | [x] => x
  | x :: xs => x ++ sep ++ joinWith sep xs

/-- The `full_command` computation of `execute_actions` (lines 132-143 of
`src/commands.rs`): interpolate, then append the extra arguments space-joined
when they are present and non-empty. -/
def fullCommand (cfg : Config) (act : Action) (extraArgs : Option (List Str)) : Str :=
  let interpolated := cfg.interpolate act.command
  match extraArgs with
  | some args =>
    if args.isEmpty then interpolated
    else interpolated ++ " ".data ++ joinWith " ".data args
  | none => interpolated

/-- How a command line is handed to the operating system: through `sh -c`
(`shell`) or as a bare program name with no arguments (`direct`). -/
inductive ProgSpec where
  | shell (script : Str)
  | direct (program : Str)
  deriving DecidableEq

/-- The three-branch command classification of `execute_actions` (lines 147-160
of `src/commands.rs`): a command starting with `./` goes through a shell, else
one containing a space character goes through a shell, else it is invoked
directly. -/
def classifyCommand (full : Str) : ProgSpec :=
  if "./".data.isPrefixOf full then ProgSpec.shell full
  else if full.contains ' ' then ProgSpec.shell full
  else ProgSpec.direct full

/-- The built-in default informational arguments (line 181 of
`src/commands.rs`). -/
def defaultInfoArgs : List Str :=
  ["--help".data, "-h".data, "--version".data, "-V".data, "--list".data, "--show".data]

/-- The effective info-arg table (lines 184-188 of `src/commands.rs`): the
configuration-supplied table when non-empty, otherwise the defaults. -/
def effectiveInfoArgs (cfg : Config) : List Str :=
  if cfg.info_args.isEmpty then defaultInfoArgs else cfg.info_args

/-- The `should_spawn` computation of `execute_actions` (lines 168-196 of
`src/commands.rs`), evaluated only when the action's `spawn` flag is true. -/
def shouldSpawn (cfg : Config) (forceSpawn forceWait : Bool) (extraArgs : Option (List Str)) :
    Bool :=
  if forceWait then false
  else if forceSpawn then true
  else
    let hasArgs :=
      match extraArgs with
      | some args => !args.isEmpty
      | none => false
    if !hasArgs then true
    else
      let hasInfoArg := (extraArgs.getD []).any fun arg => (effectiveInfoArgs cfg).contains arg
      !hasInfoArg

/-- Execution mode of one action: detached (`spawn`) or foreground (`wait`). -/
inductive Mode where
  | spawn
  | wait
  deriving DecidableEq

/-- The mode an action runs in (lines 166-246 of `src/commands.rs`): the
`should_spawn` decision is consulted only when `action.spawn` is true; when it
is false the action runs in wait mode. -/
def actionMode (cfg : Config) (act : Action) (forceSpawn forceWait : Bool)
    (extraArgs : Option (List Str)) : Mode :=
  if act.spawn then
    if shouldSpawn cfg forceSpawn forceWait extraArgs then Mode.spawn else Mode.wait
  else Mode.wait

/-- Configuration of one standard stream of a launched subprocess. -/
inductive Stdio where
  | null
  | inherit
  deriving DecidableEq

/-- Record of one subprocess launch attempt: the classified command, the
working directory, the three stream configurations, and whether the runner
blocks on the child (`status().await`) or not (`spawn()`). -/
structure Launch where
  spec : ProgSpec
  dir : Option Str
  stdin : Stdio
  stdout : Stdio
  stderr : Stdio
  waited : Bool
  deriving DecidableEq

/-- Outcome of waiting on the k-th launched subprocess. -/
inductive WaitOutcome where
  | launchFail
  | exited (success : Bool)
  deriving DecidableEq

/-- Outcome of spawning the k-th launched subprocess detached. -/
inductive SpawnOutcome where
  | spawnFail
  | spawned (pid : Nat)
  deriving DecidableEq

/-- Oracle for the operating system: the outcome of the k-th process launch,
in wait mode and in spawn mode. -/
structure Behavior where
  wait : Nat → WaitOutcome
  spawn : Nat → SpawnOutcome

/-- The errors `execute_actions` can return, each carrying the resolved
command string exactly as the `with_context`/`bail!` messages do. -/
inductive Err where
  | spawnFailure (cmd : Str)
  | execFailure (cmd : Str)
  | commandFailure (cmd : Str)
  deriving DecidableEq

/-- The message text of each error of `execute_actions`. -/
def Err.message : Err → Str
  | Err.spawnFailure c => "Failed to spawn command: ".data ++ c
  | Err.execFailure c => "Failed to execute command: ".data ++ c
  | Err.commandFailure c => "Command failed: ".data ++ c

/-- The launch record an action produces: classified command, working
directory, and the per-mode stream setup of lines 200-202 and 215-217 /
232-234 of `src/commands.rs` (spawn: all streams null, not waited on; wait:
all streams inherited, waited on). -/
def mkLaunch (cfg : Config) (act : Action) (wd : Option Str) (ea : Option (List Str))
    (fs fw : Bool) : Launch :=
  match actionMode cfg act fs fw ea with
  | Mode.spawn =>
    ⟨classifyCommand (fullCommand cfg act ea), wd, Stdio.null, Stdio.null, Stdio.null, false⟩
  | Mode.wait =>
    ⟨classifyCommand (fullCommand cfg act ea), wd,
      Stdio.inherit, Stdio.inherit, Stdio.inherit, true⟩

/-- The loop of `execute_actions` (lines 129-249 of `src/commands.rs`) from
launch counter `k`: for each action, resolve the command, classify it, and run
it in its mode.  Spawn mode records the launch and continues immediately; a
spawn failure aborts with `Err.spawnFailure`.  Wait mode blocks on the status:
a launch failure aborts with `Err.execFailure`, a non-zero exit aborts with
`Err.commandFailure`, success continues.  Returns the list of launch attempts
in order, and the overall result. -/
def executeActionsFrom (cfg : Config) (beh : Behavior) :
    List Action → Option Str → Option (List Str) → Bool → Bool → Nat →
    List Launch × Except Err Unit
  | [], _, _, _, _, _ => ([], Except.ok ())
  | act :: rest, wd, ea, fs, fw, k =>
    match actionMode cfg act fs fw ea with
    | Mode.spawn =>
      match beh.spawn k with
      | SpawnOutcome.spawnFail =>
        ([mkLaunch cfg act wd ea fs fw],
         Except.error (Err.spawnFailure (fullCommand cfg act ea)))
      | SpawnOutcome.spawned _ =>
        (mkLaunch cfg act wd ea fs fw
            :: (executeActionsFrom cfg beh rest wd ea fs fw (k + 1)).1,
         (executeActionsFrom cfg beh rest wd ea fs fw (k + 1)).2)
    | Mode.wait =>
      match beh.wait k with
      | WaitOutcome.launchFail =>
        ([mkLaunch cfg act wd ea fs fw],
         Except.error (Err.execFailure (fullCommand cfg act ea)))
      | WaitOutcome.exited true =>
        (mkLaunch cfg act wd ea fs fw
            :: (executeActionsFrom cfg beh rest wd ea fs fw (k + 1)).1,
         (executeActionsFrom cfg beh rest wd ea fs fw (k + 1)).2)
      | WaitOutcome.exited false =>
        ([mkLaunch cfg act wd ea fs fw],
         Except.error (Err.commandFailure (fullCommand cfg act ea)))

/-- `execute_actions` on a whole action list (launch counter starts at 0). -/
def executeActions (cfg : Config) (beh : Behavior) (actions : List Action)
    (wd : Option Str) (ea : Option (List Str)) (fs fw : Bool) :
    List Launch × Except Err Unit :=
  executeActionsFrom cfg beh actions wd ea fs fw 0

/-- Whether the action at launch counter `k` completes without aborting the
run: in spawn mode the spawn succeeds, in wait mode the child exits with a
success status. -/
def actionOk (cfg : Config) (beh : Behavior) (act : Action) (ea : Option (List Str))
    (fs fw : Bool) (k : Nat) : Bool :=
  match actionMode cfg act fs fw ea with
  | Mode.spawn =>
    match beh.spawn k with
    | SpawnOutcome.spawnFail => false
    | SpawnOutcome.spawned _ => true
  | Mode.wait =>
    match beh.wait k with
    | WaitOutcome.exited true => true
    | _ => false

/-- A string containing no opening square bracket.  Both placeholder tokens
start with `[`, so no occurrence of a token can touch a bracket-free chunk. -/
abbrev bracketFree (s : Str) : Prop := ∀ c ∈ s, c ≠ '['

/-- The two placeholder tokens of `Config::interpolate`. -/
inductive Tok where
  | url
  | name
  deriving DecidableEq

/-- The text of a placeholder token. -/
def tokStr : Tok → Str
  | Tok.url => urlToken
  | Tok.name => nameToken

/-- A template assembled from an alternation of literal chunks and
placeholders, with each placeholder rendered through `f`: `assembleWith f c0
[(t1, c1), (t2, c2)] = c0 ++ f t1 ++ c1 ++ f t2 ++ c2`. -/
def assembleWith (f : Tok → Str) : Str → List (Tok × Str) → Str
  | c0, [] => c0
  | c0, (t, ch) :: rest => c0 ++ f t ++ assembleWith f ch rest

/-- A well-formed template: literal chunks alternating with whole placeholder
tokens. -/
def assemble : Str → List (Tok × Str) → Str :=
  assembleWith tokStr

/-- Placeholder rendering after the URL pass only. -/
def urlSubst (v : Str) : Tok → Str
  | Tok.url => v
  | Tok.name => nameToken

/-- Placeholder rendering after the name pass only. -/
def nameSubst (v : Str) : Tok → Str
  | Tok.url => urlToken
  | Tok.name => v

/-- Placeholder rendering after both passes. -/
def bothSubst (uv nv : Str) : Tok → Str
  | Tok.url => uv
  | Tok.name => nv

/-- Empty action lists, for sample configurations. -/
def emptyActions : Actions := ⟨[], [], [], []⟩

/-- Sample configuration used by witnesses. -/
def cfgSample : Config :=
  ⟨⟨"tool".data, "https://example.com/tool".data, ⟨"main".data⟩⟩, [], emptyActions, []⟩

/-- Configuration whose url value is the text `repo.name` (which contains
neither placeholder token): replacing the URL token inside `[[...]]` context
recombines into a name-token occurrence. -/
def cfgC4 : Config :=
  ⟨⟨"N".data, "repo.name".data, ⟨"main".data⟩⟩, [], emptyActions, []⟩

/-- Configuration with an empty url value (which contains neither placeholder
token): replacing the URL token can splice surrounding text into a fresh
URL-token occurrence. -/
def cfgC9 : Config :=
  ⟨⟨"N".data, "".data, ⟨"main".data⟩⟩, [], emptyActions, []⟩

/-- Sample non-spawning action. -/
def actWait1 : Action := ⟨1, none, "git status".data, "first step".data, false⟩

/-- Sample non-spawning action that will be made to fail. -/
def actWait2 : Action := ⟨2, none, "cargo build".data, "second step".data, false⟩

/-- Sample non-spawning action placed after the failing one. -/
def actWait3 : Action := ⟨3, none, "cargo test".data, "third step".data, false⟩

/-- Sample spawning action. -/
def actSpawn : Action := ⟨1, none, "gui-app".data, "launch the app".data, true⟩

/-- Behavior where the first process succeeds and every later one exits with a
failure status. -/
def behC2 : Behavior :=
  ⟨fun k => if k = 0 then WaitOutcome.exited true else WaitOutcome.exited false,
   fun _ => SpawnOutcome.spawned 7⟩

/-- Behavior where every launch succeeds. -/
def behOk : Behavior :=
  ⟨fun _ => WaitOutcome.exited true, fun _ => SpawnOutcome.spawned 42⟩

/-- Behavior where every spawn attempt fails to launch. -/
def behSpawnBad : Behavior :=
  ⟨fun _ => WaitOutcome.exited true, fun _ => SpawnOutcome.spawnFail⟩

/-! ### Properties of `replaceList` -/

theorem replaceListGo_congr_fuel (pat rep : Str) (hpat : pat ≠ []) :
    ∀ f₁ f₂ s, s.length ≤ f₁ → s.length ≤ f₂ →
      replaceListGo pat rep f₁ s = replaceListGo pat rep f₂ s := by
  intro f₁
  induction f₁ with
  | zero =>
    intro f₂ s h₁ _
    have hs : s = [] := List.eq_nil_of_length_eq_zero (Nat.le_zero.mp h₁)
    subst hs
    cases f₂ <;> rfl
  | succ f ih =>
    intro f₂ s h₁ h₂
    cases s with
    | nil => cases f₂ <;> rfl
    | cons c cs =>
      cases f₂ with
      | zero => simp at h₂
      | succ g =>
        have hl₁ : cs.length ≤ f := by simpa using h₁
        have hl₂ : cs.length ≤ g := by simpa using h₂
        have hp1 : 0 < pat.length := List.length_pos.mpr hpat
        simp only [replaceListGo]
        by_cases hp : pat.isPrefixOf (c :: cs) = true
        · simp only [hp, if_true]
          have hd : (List.drop pat.length (c :: cs)).length ≤ f := by
            simp only [List.length_drop, List.length_cons]
            omega
          have hd₂ : (List.drop pat.length (c :: cs)).length ≤ g := by
            simp only [List.length_drop, List.length_cons]
            omega
          rw [ih g _ hd hd₂]
        · simp only [Bool.not_eq_true] at hp
          simp only [hp, Bool.false_eq_true, if_false]
          rw [ih g cs hl₁ hl₂]

theorem replaceList_cons_pos (pat rep : Str) (c : Char) (cs : Str) (hpat : pat ≠ [])
    (h : pat.isPrefixOf (c :: cs) = true) :
    replaceList pat rep (c :: cs)
      = rep ++ replaceList pat rep (List.drop pat.length (c :: cs)) := by
  show replaceListGo pat rep (cs.length + 1) (c :: cs) = _
  simp only [replaceListGo, h, if_true]
  congr 1
  have hp1 : 0 < pat.length := List.length_pos.mpr hpat
  exact replaceListGo_congr_fuel pat rep hpat cs.length _ _
    (by simp only [List.length_drop, List.length_cons]; omega) le_rfl

theorem replaceList_cons_neg (pat rep : Str) (c : Char) (cs : Str)
    (h : pat.isPrefixOf (c :: cs) = false) :
    replaceList pat rep (c :: cs) = c :: replaceList pat rep cs := by
  show replaceListGo pat rep (cs.length + 1) (c :: cs) = _
  simp only [replaceListGo, h, Bool.false_eq_true, if_false]
  rfl

theorem replaceList_match (pat rep b : Str) (hpat : pat ≠ []) :
    replaceList pat rep (pat ++ b) = rep ++ replaceList pat rep b := by
  cases pat with
  | nil => exact absurd rfl hpat
  | cons p ps =>
    have h : (p :: ps).isPrefixOf (p :: (ps ++ b)) = true :=
       List.isPrefixOf_iff_prefix.mpr ( List.prefix_append _ _)
    rw [show (p :: ps) ++ b = p :: (ps ++ b) from rfl,
        replaceList_cons_pos _ _ _ _ hpat h]
    congr 1
    rw [show p :: (ps ++ b) = (p :: ps) ++ b from rfl, List.drop_left]

theorem replaceList_id_of_no_occurrence (pat rep : Str) :
    ∀ s, ¬ pat <:+: s → replaceList pat rep s = s := by
  intro s
  induction s with
  | nil => intro _; rfl
  | cons c cs ih =>
    intro h
    have h1 : pat.isPrefixOf (c :: cs) = false := by
      cases hb : pat.isPrefixOf (c :: cs) with
      | false => rfl
      | true => exact absurd (( List.isPrefixOf_iff_prefix.mp hb).isInfix) h
    rw [replaceList_cons_neg _ _ _ _ h1, ih fun hi => h ( List.infix_cons hi)]

theorem no_occurrence_of_bracketFree {pat s : Str} (hp : '[' ∈ pat) (hs : bracketFree s) :
    ¬ pat <:+: s :=
  fun h => hs '[' (h.subset hp) rfl

theorem replaceList_id_of_bracketFree (pat rep : Str) {s : Str} (hp : '[' ∈ pat)
    (hs : bracketFree s) : replaceList pat rep s = s :=
  replaceList_id_of_no_occurrence pat rep s (no_occurrence_of_bracketFree hp hs)

theorem replaceList_append_bracketFree (pat rep : Str) (hp : pat.head? = some '[') :
    ∀ (a b : Str), bracketFree a →
      replaceList pat rep (a ++ b) = a ++ replaceList pat rep b := by
  intro a
  induction a with
  | nil => intro b _; simp
  | cons c a ih =>
    intro b ha
    have hc : c ≠ '[' := ha c (by simp)
    have h1 : pat.isPrefixOf (c :: (a ++ b)) = false := by
      cases pat with
      | nil => simp at hp
      | cons p ps =>
        have hpc : p = '[' := by simpa using hp
        subst hpc
        have hne : ('[' == c) = false := beq_eq_false_iff_ne.mpr (Ne.symm hc)
        simp [List.isPrefixOf, hne]
    rw [List.cons_append, replaceList_cons_neg _ _ _ _ h1,
        ih b fun x hx => ha x (List.mem_cons_of_mem _ hx)]
    rfl

/-! ### The two tokens do not overlap each other -/

theorem replaceList_skip_nameToken (rep b : Str) :
    replaceList urlToken rep (nameToken ++ b) = nameToken ++ replaceList urlToken rep b := by
  show replaceList urlToken rep
      ('[' :: '[' :: 'r' :: 'e' :: 'p' :: 'o' :: '.' :: 'n' :: 'a' :: 'm' :: 'e' :: ']' :: ']' :: b) = _
  rw [replaceList_cons_neg urlToken rep '['
        ('[' :: 'r' :: 'e' :: 'p' :: 'o' :: '.' :: 'n' :: 'a' :: 'm' :: 'e' :: ']' :: ']' :: b) rfl,
      replaceList_cons_neg urlToken rep '['
        ('r' :: 'e' :: 'p' :: 'o' :: '.' :: 'n' :: 'a' :: 'm' :: 'e' :: ']' :: ']' :: b) rfl,
      replaceList_cons_neg urlToken rep 'r'
        ('e' :: 'p' :: 'o' :: '.' :: 'n' :: 'a' :: 'm' :: 'e' :: ']' :: ']' :: b) rfl,
      replaceList_cons_neg urlToken rep 'e'
        ('p' :: 'o' :: '.' :: 'n' :: 'a' :: 'm' :: 'e' :: ']' :: ']' :: b) rfl,
      replaceList_cons_neg urlToken rep 'p'
        ('o' :: '.' :: 'n' :: 'a' :: 'm' :: 'e' :: ']' :: ']' :: b) rfl,
      replaceList_cons_neg urlToken rep 'o'
        ('.' :: 'n' :: 'a' :: 'm' :: 'e' :: ']' :: ']' :: b) rfl,
      replaceList_cons_neg urlToken rep '.'
        ('n' :: 'a' :: 'm' :: 'e' :: ']' :: ']' :: b) rfl,
      replaceList_cons_neg urlToken rep 'n'
        ('a' :: 'm' :: 'e' :: ']' :: ']' :: b) rfl,
      replaceList_cons_neg urlToken rep 'a'
        ('m' :: 'e' :: ']' :: ']' :: b) rfl,
      replaceList_cons_neg urlToken rep 'm'
        ('e' :: ']' :: ']' :: b) rfl,
      replaceList_cons_neg urlToken rep 'e'
        (']' :: ']' :: b) rfl,
      replaceList_cons_neg urlToken rep ']'
        (']' :: b) rfl,
      replaceList_cons_neg urlToken rep ']'
        (b) rfl]
  rfl

theorem replaceList_skip_urlToken (rep b : Str) :
    replaceList nameToken rep (urlToken ++ b) = urlToken ++ replaceList nameToken rep b := by
  show replaceList nameToken rep
      ('[' :: '[' :: 'r' :: 'e' :: 'p' :: 'o' :: '.' :: 'u' :: 'r' :: 'l' :: ']' :: ']' :: b) = _
  rw [replaceList_cons_neg nameToken rep '['
        ('[' :: 'r' :: 'e' :: 'p' :: 'o' :: '.' :: 'u' :: 'r' :: 'l' :: ']' :: ']' :: b) rfl,
      replaceList_cons_neg nameToken rep '['
        ('r' :: 'e' :: 'p' :: 'o' :: '.' :: 'u' :: 'r' :: 'l' :: ']' :: ']' :: b) rfl,
      replaceList_cons_neg nameToken rep 'r'
        ('e' :: 'p' :: 'o' :: '.' :: 'u' :: 'r' :: 'l' :: ']' :: ']' :: b) rfl,
      replaceList_cons_neg nameToken rep 'e'
        ('p' :: 'o' :: '.' :: 'u' :: 'r' :: 'l' :: ']' :: ']' :: b) rfl,
      replaceList_cons_neg nameToken rep 'p'
        ('o' :: '.' :: 'u' :: 'r' :: 'l' :: ']' :: ']' :: b) rfl,
      replaceList_cons_neg nameToken rep 'o'
        ('.' :: 'u' :: 'r' :: 'l' :: ']' :: ']' :: b) rfl,
      replaceList_cons_neg nameToken rep '.'
        ('u' :: 'r' :: 'l' :: ']' :: ']' :: b) rfl,
      replaceList_cons_neg nameToken rep 'u'
        ('r' :: 'l' :: ']' :: ']' :: b) rfl,
      replaceList_cons_neg nameToken rep 'r'
        ('l' :: ']' :: ']' :: b) rfl,
      replaceList_cons_neg nameToken rep 'l'
        (']' :: ']' :: b) rfl,
      replaceList_cons_neg nameToken rep ']'
        (']' :: b) rfl,
      replaceList_cons_neg nameToken rep ']'
        (b) rfl]
  rfl

/-! ### Greedy factorization of a replacement pass -/

theorem joinWith_cons_of_ne_nil (sep x : Str) (xs : List Str) (h : xs ≠ []) :
    joinWith sep (x :: xs) = x ++ sep ++ joinWith sep xs := by
  cases xs with
  | nil => exact absurd rfl h
  | cons y ys => rfl

theorem joinWith_cons_head (sep : Str) (c : Char) (x : Str) (xs : List Str) :
    joinWith sep ((c :: x) :: xs) = c :: joinWith sep (x :: xs) := by
  cases xs with
  | nil => rfl
  | cons y ys => rfl

theorem first_chunk_le_joinWith (sep x : Str) (xs : List Str) :
    x <+: joinWith sep (x :: xs) := by
  cases xs with
  | nil => exact ⟨[], by simp [joinWith]⟩
  | cons y ys =>
    exact ⟨sep ++ joinWith sep (y :: ys), by simp [joinWith, List.append_assoc]⟩

theorem chunks_of_nil (pat rep : Str) (hpat : pat ≠ []) :
    ∃ chunks : List Str, chunks ≠ [] ∧ ([] : Str) = joinWith pat chunks ∧
      (∀ ch ∈ chunks, ¬ pat <:+: ch) ∧ replaceList pat rep [] = joinWith rep chunks := by
  refine ⟨[[]], by simp, rfl, ?_, rfl⟩
  intro ch hch
  simp only [List.mem_singleton] at hch
  subst hch
  intro hi
  exact hpat (List.eq_nil_of_length_eq_zero (Nat.le_zero.mp hi.length_le))

/-- The greedy left-to-right factorization computed by one replacement pass:
`s` splits into pattern-free chunks separated by pattern occurrences, and the
pass keeps every chunk and replaces every separator. -/
theorem replaceList_chunks (pat rep : Str) (hpat : pat ≠ []) :
    ∀ s : Str, ∃ chunks : List Str, chunks ≠ [] ∧ s = joinWith pat chunks ∧
      (∀ ch ∈ chunks, ¬ pat <:+: ch) ∧ replaceList pat rep s = joinWith rep chunks := by
  suffices H : ∀ (n : Nat) (s : Str), s.length ≤ n →
      ∃ chunks : List Str, chunks ≠ [] ∧ s = joinWith pat chunks ∧
        (∀ ch ∈ chunks, ¬ pat <:+: ch) ∧ replaceList pat rep s = joinWith rep chunks by
    exact fun s => H s.length s le_rfl
  intro n
  induction n with
  | zero =>
    intro s hs
    have hnil : s = [] := List.eq_nil_of_length_eq_zero (Nat.le_zero.mp hs)
    subst hnil
    exact chunks_of_nil pat rep hpat
  | succ n ih =>
    intro s hs
    cases s with
    | nil => exact chunks_of_nil pat rep hpat
    | cons c cs =>
      cases hb : pat.isPrefixOf (c :: cs) with
      | true =>
        have hpre : pat <+: c :: cs := List.isPrefixOf_iff_prefix.mp hb
        have hsplit : pat ++ List.drop pat.length (c :: cs) = c :: cs :=
           List.prefix_iff_eq_append.mp hpre
        have hp1 : 0 < pat.length := List.length_pos.mpr hpat
        have hdlen : (List.drop pat.length (c :: cs)).length ≤ n := by
          simp only [List.length_drop, List.length_cons]
          have := Nat.succ_le_succ_iff.mp hs
          omega
        obtain ⟨chunks, hne, hjoin, hfree, hrep⟩ := ih (List.drop pat.length (c :: cs)) hdlen
        refine ⟨[] :: chunks, by simp, ?_, ?_, ?_⟩
        · rw [joinWith_cons_of_ne_nil _ _ _ hne, List.nil_append, ← hjoin]
          exact hsplit.symm
        · intro ch hch
          rcases List.mem_cons.mp hch with h | h
          · subst h
            intro hi
            exact hpat (List.eq_nil_of_length_eq_zero (Nat.le_zero.mp hi.length_le))
          · exact hfree ch h
        · calc replaceList pat rep (c :: cs)
              = replaceList pat rep (pat ++ List.drop pat.length (c :: cs)) := by rw [hsplit]
            _ = rep ++ replaceList pat rep (List.drop pat.length (c :: cs)) :=
                replaceList_match _ _ _ hpat
            _ = rep ++ joinWith rep chunks := by rw [hrep]
            _ = joinWith rep ([] :: chunks) := by
                rw [joinWith_cons_of_ne_nil _ _ _ hne, List.nil_append]
      | false =>
        have hlen : cs.length ≤ n := Nat.succ_le_succ_iff.mp hs
        obtain ⟨chunks, hne, hjoin, hfree, hrep⟩ := ih cs hlen
        cases chunks with
        | nil => exact absurd rfl hne
        | cons ch rest =>
          refine ⟨(c :: ch) :: rest, by simp, ?_, ?_, ?_⟩
          · rw [joinWith_cons_head, ← hjoin]
          · intro x hx
            rcases List.mem_cons.mp hx with h | h
            · subst h
              intro hi
              rcases List.infix_cons_iff.mp hi with hpre2 | hinf
              · have hchp : ch <+: cs := by
                  rw [hjoin]
                  exact first_chunk_le_joinWith pat ch rest
                have hcc : (c :: ch) <+: (c :: cs) := List.cons_prefix_cons.mpr ⟨rfl, hchp⟩
                have hps : pat <+: (c :: cs) := hpre2.trans hcc
                have hbt : pat.isPrefixOf (c :: cs) = true :=
                   List.isPrefixOf_iff_prefix.mpr hps
                rw [hbt] at hb
                cases hb
              · exact hfree ch (List.mem_cons_self _ _) hinf
            · exact hfree x (List.mem_cons_of_mem _ h)
          · rw [replaceList_cons_neg _ _ _ _ hb, hrep, joinWith_cons_head]

/-! ### Interpolation passes over well-formed templates -/

theorem bracketFree_append {a b : Str} (ha : bracketFree a) (hb : bracketFree b) :
    bracketFree (a ++ b) := by
  intro c hc
  rcases List.mem_append.mp hc with h | h
  · exact ha c h
  · exact hb c h

theorem assembleWith_bracketFree (f : Tok → Str) (hf : ∀ t, bracketFree (f t)) :
    ∀ (ps : List (Tok × Str)) (c0 : Str), bracketFree c0 → (∀ p ∈ ps, bracketFree p.2) →
      bracketFree (assembleWith f c0 ps) := by
  intro ps
  induction ps with
  | nil => intro c0 h _; exact h
  | cons p rest ih =>
    intro c0 h hps
    obtain ⟨t, ch⟩ := p
    exact bracketFree_append (bracketFree_append h (hf t))
      (ih ch (hps (t, ch) (List.mem_cons_self _ _))
        fun q hq => hps q (List.mem_cons_of_mem _ hq))

theorem urlPass_assemble (uv : Str) :
    ∀ (ps : List (Tok × Str)) (c0 : Str), bracketFree c0 → (∀ p ∈ ps, bracketFree p.2) →
      replaceList urlToken uv (assembleWith tokStr c0 ps)
        = assembleWith (urlSubst uv) c0 ps := by
  intro ps
  induction ps with
  | nil =>
    intro c0 h _
    exact replaceList_id_of_bracketFree _ _ (by decide) h
  | cons p rest ih =>
    intro c0 h hps
    obtain ⟨t, ch⟩ := p
    have hch : bracketFree ch := hps (t, ch) (List.mem_cons_self _ _)
    have hrest : ∀ p ∈ rest, bracketFree p.2 := fun q hq => hps q (List.mem_cons_of_mem _ hq)
    cases t with
    | url =>
      show replaceList urlToken uv (c0 ++ urlToken ++ assembleWith tokStr ch rest)
          = c0 ++ uv ++ assembleWith (urlSubst uv) ch rest
      rw [List.append_assoc, replaceList_append_bracketFree _ _ (by decide) _ _ h,
          replaceList_match _ _ _ (by decide), ih ch hch hrest, List.append_assoc]
    | name =>
      show replaceList urlToken uv (c0 ++ nameToken ++ assembleWith tokStr ch rest)
          = c0 ++ nameToken ++ assembleWith (urlSubst uv) ch rest
      rw [List.append_assoc, replaceList_append_bracketFree _ _ (by decide) _ _ h,
          replaceList_skip_nameToken, ih ch hch hrest, List.append_assoc]

theorem namePass_assemble (nv : Str) :
    ∀ (ps : List (Tok × Str)) (c0 : Str), bracketFree c0 → (∀ p ∈ ps, bracketFree p.2) →
      replaceList nameToken nv (assembleWith tokStr c0 ps)
        = assembleWith (nameSubst nv) c0 ps := by
  intro ps
  induction ps with
  | nil =>
    intro c0 h _
    exact replaceList_id_of_bracketFree _ _ (by decide) h
  | cons p rest ih =>
    intro c0 h hps
    obtain ⟨t, ch⟩ := p
    have hch : bracketFree ch := hps (t, ch) (List.mem_cons_self _ _)
    have hrest : ∀ p ∈ rest, bracketFree p.2 := fun q hq => hps q (List.mem_cons_of_mem _ hq)
    cases t with
    | url =>
      show replaceList nameToken nv (c0 ++ urlToken ++ assembleWith tokStr ch rest)
          = c0 ++ urlToken ++ assembleWith (nameSubst nv) ch rest
      rw [List.append_assoc, replaceList_append_bracketFree _ _ (by decide) _ _ h,
          replaceList_skip_urlToken, ih ch hch hrest, List.append_assoc]
    | name =>
      show replaceList nameToken nv (c0 ++ nameToken ++ assembleWith tokStr ch rest)
          = c0 ++ nv ++ assembleWith (nameSubst nv) ch rest
      rw [List.append_assoc, replaceList_append_bracketFree _ _ (by decide) _ _ h,
          replaceList_match _ _ _ (by decide), ih ch hch hrest, List.append_assoc]

theorem namePass_after_urlPass (uv nv : Str) (huv : bracketFree uv) :
    ∀ (ps : List (Tok × Str)) (c0 : Str), bracketFree c0 → (∀ p ∈ ps, bracketFree p.2) →
      replaceList nameToken nv (assembleWith (urlSubst uv) c0 ps)
        = assembleWith (bothSubst uv nv) c0 ps := by
  intro ps
  induction ps with
  | nil =>
    intro c0 h _
    exact replaceList_id_of_bracketFree _ _ (by decide) h
  | cons p rest ih =>
    intro c0 h hps
    obtain ⟨t, ch⟩ := p
    have hch : bracketFree ch := hps (t, ch) (List.mem_cons_self _ _)
    have hrest : ∀ p ∈ rest, bracketFree p.2 := fun q hq => hps q (List.mem_cons_of_mem _ hq)
    cases t with
    | url =>
      show replaceList nameToken nv ((c0 ++ uv) ++ assembleWith (urlSubst uv) ch rest)
          = (c0 ++ uv) ++ assembleWith (bothSubst uv nv) ch rest
      rw [replaceList_append_bracketFree _ _ (by decide) _ _ (bracketFree_append h huv),
          ih ch hch hrest]
    | name =>
      show replaceList nameToken nv (c0 ++ nameToken ++ assembleWith (urlSubst uv) ch rest)
          = c0 ++ nv ++ assembleWith (bothSubst uv nv) ch rest
      rw [List.append_assoc, replaceList_append_bracketFree _ _ (by decide) _ _ h,
          replaceList_match _ _ _ (by decide), ih ch hch hrest, List.append_assoc]

theorem urlPass_after_namePass (uv nv : Str) (hnv : bracketFree nv) :
    ∀ (ps : List (Tok × Str)) (c0 : Str), bracketFree c0 → (∀ p ∈ ps, bracketFree p.2) →
      replaceList urlToken uv (assembleWith (nameSubst nv) c0 ps)
        = assembleWith (bothSubst uv nv) c0 ps := by
  intro ps
  induction ps with
  | nil =>
    intro c0 h _
    exact replaceList_id_of_bracketFree _ _ (by decide) h
  | cons p rest ih =>
    intro c0 h hps
    obtain ⟨t, ch⟩ := p
    have hch : bracketFree ch := hps (t, ch) (List.mem_cons_self _ _)
    have hrest : ∀ p ∈ rest, bracketFree p.2 := fun q hq => hps q (List.mem_cons_of_mem _ hq)
    cases t with
    | url =>
      show replaceList urlToken uv (c0 ++ urlToken ++ assembleWith (nameSubst nv) ch rest)
          = c0 ++ uv ++ assembleWith (bothSubst uv nv) ch rest
      rw [List.append_assoc, replaceList_append_bracketFree _ _ (by decide) _ _ h,
          replaceList_match _ _ _ (by decide), ih ch hch hrest, List.append_assoc]
    | name =>
      show replaceList urlToken uv ((c0 ++ nv) ++ assembleWith (nameSubst nv) ch rest)
          = (c0 ++ nv) ++ assembleWith (bothSubst uv nv) ch rest
      rw [replaceList_append_bracketFree _ _ (by decide) _ _ (bracketFree_append h hnv),
          ih ch hch hrest]

/-! ### Properties of the action runner -/

theorem executeActionsFrom_cons_ok (cfg : Config) (beh : Behavior) (act : Action)
    (rest : List Action) (wd : Option Str) (ea : Option (List Str)) (fs fw : Bool) (k : Nat)
    (h : actionOk cfg beh act ea fs fw k = true) :
    executeActionsFrom cfg beh (act :: rest) wd ea fs fw k
      = (mkLaunch cfg act wd ea fs fw
            :: (executeActionsFrom cfg beh rest wd ea fs fw (k + 1)).1,
         (executeActionsFrom cfg beh rest wd ea fs fw (k + 1)).2) := by
  unfold actionOk at h
  simp only [executeActionsFrom]
  cases hm : actionMode cfg act fs fw ea with
  | spawn =>
    rw [hm] at h
    cases hs : beh.spawn k with
    | spawnFail => rw [hs] at h; cases h
    | spawned pid => rfl
  | wait =>
    rw [hm] at h
    cases hw : beh.wait k with
    | launchFail => rw [hw] at h; cases h
    | exited b =>
      rw [hw] at h
      cases b with
      | true => rfl
      | false => cases h

theorem executeActionsFrom_cons_waitFail (cfg : Config) (beh : Behavior) (act : Action)
    (rest : List Action) (wd : Option Str) (ea : Option (List Str)) (fs fw : Bool) (k : Nat)
    (hmode : actionMode cfg act fs fw ea = Mode.wait)
    (hfail : beh.wait k = WaitOutcome.exited false) :
    executeActionsFrom cfg beh (act :: rest) wd ea fs fw k
      = ([mkLaunch cfg act wd ea fs fw],
         Except.error (Err.commandFailure (fullCommand cfg act ea))) := by
  simp only [executeActionsFrom]
  rw [hmode, hfail]

theorem executeActionsFrom_fail_aux (cfg : Config) (beh : Behavior) :
    ∀ (pre : List Action) (k : Nat) (post : List Action) (act : Action) (wd : Option Str)
      (ea : Option (List Str)) (fs fw : Bool),
      (∀ i (hi : i < pre.length), actionOk cfg beh (pre.get ⟨i, hi⟩) ea fs fw (k + i) = true) →
      actionMode cfg act fs fw ea = Mode.wait →
      beh.wait (k + pre.length) = WaitOutcome.exited false →
      executeActionsFrom cfg beh (pre ++ act :: post) wd ea fs fw k
        = ((pre ++ [act]).map fun a => mkLaunch cfg a wd ea fs fw,
           Except.error (Err.commandFailure (fullCommand cfg act ea))) := by
  intro pre
  induction pre with
  | nil =>
    intro k post act wd ea fs fw _ hmode hfail
    rw [List.nil_append, executeActionsFrom_cons_waitFail cfg beh act post wd ea fs fw k hmode
        (by simpa using hfail)]
    rfl
  | cons p pre ih =>
    intro k post act wd ea fs fw hpre hmode hfail
    have h0 : actionOk cfg beh p ea fs fw k = true := by
      have := hpre 0 (by simp)
      simpa using this
    rw [List.cons_append, executeActionsFrom_cons_ok cfg beh p _ wd ea fs fw k h0,
        ih (k + 1) post act wd ea fs fw
          (fun i hi => by
            have := hpre (i + 1) (by simpa using Nat.succ_lt_succ hi)
            simpa [Nat.add_assoc, Nat.add_comm 1 i] using this)
          hmode
          (by
            have : k + 1 + pre.length = k + (p :: pre).length := by
              simp [List.length_cons]; omega
            rw [this]; exact hfail)]
    rfl

/-! ### Claim theorems -/

/-- Claim C1, counterexample: the claim asserts its decision table for every
combination of the five inputs, but with `action.spawn = false`,
`force_spawn = true` and `force_wait = false` the code runs the action in wait
mode while the table demands spawn mode. -/
theorem c1_decision_table_counterexample :
    actWait1.spawn = false ∧
    actionMode cfgSample actWait1 true false none = Mode.wait ∧
    Mode.wait ≠ Mode.spawn := by
  decide

/-- Claim C1 (amended): for every combination of the five inputs with
`action.spawn = true`, the spawn/wait decision satisfies: `force_wait` implies
wait; else `force_spawn` implies spawn; else no extra arguments implies spawn;
else an extra argument in the effective info-arg set implies wait; otherwise
spawn. -/
theorem c1_decision_table (cfg : Config) (act : Action) (fs fw : Bool)
    (ea : Option (List Str)) (hspawn : act.spawn = true) :
    (fw = true → actionMode cfg act fs fw ea = Mode.wait) ∧
    (fw = false → fs = true → actionMode cfg act fs fw ea = Mode.spawn) ∧
    (fw = false → fs = false → ea.getD [] = [] →
      actionMode cfg act fs fw ea = Mode.spawn) ∧
    (fw = false → fs = false → (∃ a ∈ ea.getD [], a ∈ effectiveInfoArgs cfg) →
      actionMode cfg act fs fw ea = Mode.wait) ∧
    (fw = false → fs = false → ea.getD [] ≠ [] →
      (∀ a ∈ ea.getD [], a ∉ effectiveInfoArgs cfg) →
      actionMode cfg act fs fw ea = Mode.spawn) := by
  refine ⟨?_, ?_, ?_, ?_, ?_⟩
  · intro hw
    subst hw
    simp [actionMode, hspawn, shouldSpawn]
  · intro hw hf
    subst hw
    subst hf
    simp [actionMode, hspawn, shouldSpawn]
  · intro hw hf hne
    subst hw
    subst hf
    cases ea with
    | none => simp [actionMode, hspawn, shouldSpawn]
    | some args =>
      simp only [Option.getD_some] at hne
      subst hne
      simp [actionMode, hspawn, shouldSpawn]
  · intro hw hf hex
    subst hw
    subst hf
    obtain ⟨a, ha, hmem⟩ := hex
    cases ea with
    | none => simp at ha
    | some args =>
      simp only [Option.getD_some] at ha
      have hargs : args ≠ [] := fun h => by subst h; simp at ha
      have hisE : args.isEmpty = false := by
        cases args with
        | nil => exact absurd rfl hargs
        | cons x xs => rfl
      have hany : (args.any fun arg => (effectiveInfoArgs cfg).contains arg) = true :=
        List.any_eq_true.mpr ⟨a, ha, by simpa [List.contains] using hmem⟩
      simp [actionMode, hspawn, shouldSpawn, hisE, hany]
      exact ⟨a, ha, hmem⟩
  · intro hw hf hne hall
    subst hw
    subst hf
    cases ea with
    | none => simp at hne
    | some args =>
      simp only [Option.getD_some] at hne hall
      have hisE : args.isEmpty = false := by
        cases args with
        | nil => exact absurd rfl hne
        | cons x xs => rfl
      have hany : (args.any fun arg => (effectiveInfoArgs cfg).contains arg) = false := by
        cases hq : args.any fun arg => (effectiveInfoArgs cfg).contains arg with
        | false => rfl
        | true =>
          obtain ⟨a, ha, hc⟩ := List.any_eq_true.mp hq
          exact absurd (by simpa [List.contains] using hc) (hall a ha)
      simp [actionMode, hspawn, shouldSpawn, hisE, hany]
      exact hall

/-- Claim C1, witness: with the defaults in force, a spawning action invoked
with the single extra argument `--help` is decided to wait. -/
theorem c1_decision_table_witness :
    actSpawn.spawn = true ∧
    actionMode cfgSample actSpawn false false (some ["--help".data]) = Mode.wait :=
  ⟨by decide,
   (c1_decision_table cfgSample actSpawn false false (some ["--help".data])
      (by decide)).2.2.2.1 rfl rfl ⟨"--help".data, by decide, by decide⟩⟩

/-- Claim C3: command classification has exactly three branches in order:
starting with `./` means shell; else containing a space character means shell;
else the command is invoked directly. -/
theorem c3_classification (C : Str) :
    ("./".data.isPrefixOf C = true → classifyCommand C = ProgSpec.shell C) ∧
    ("./".data.isPrefixOf C = false → C.contains ' ' = true →
      classifyCommand C = ProgSpec.shell C) ∧
    ("./".data.isPrefixOf C = false → C.contains ' ' = false →
      classifyCommand C = ProgSpec.direct C) := by
  refine ⟨fun h => by simp [classifyCommand, h], fun h h2 => ?_, fun h h2 => ?_⟩
  · have h3 : ' ' ∈ C := by simpa [List.contains] using h2
    simp [classifyCommand, h, h3]
  · have h3 : ' ' ∉ C := by simpa [List.contains] using h2
    simp [classifyCommand, h, h3]

/-- Claim C3, witness: a relative-path command is shell-invoked. -/
theorem c3_classification_witness :
    "./".data.isPrefixOf "./run.sh".data = true ∧
    classifyCommand "./run.sh".data = ProgSpec.shell "./run.sh".data :=
  ⟨by decide, (c3_classification "./run.sh".data).1 (by decide)⟩

/-- Claim C5: when an action's `spawn` flag is false the action always runs in
wait mode, whatever the overrides and extra arguments; the `should_spawn`
decision is consulted only when the flag is true. -/
theorem c5_spawn_flag_false_waits (cfg : Config) (act : Action) (fs fw : Bool)
    (ea : Option (List Str)) :
    (act.spawn = false → actionMode cfg act fs fw ea = Mode.wait) ∧
    (act.spawn = true →
      actionMode cfg act fs fw ea
        = if shouldSpawn cfg fs fw ea then Mode.spawn else Mode.wait) := by
  constructor <;> intro h <;> simp [actionMode, h]

/-- Claim C5, witness: a non-spawning action stays in wait mode even under
`force_spawn`. -/
theorem c5_spawn_flag_false_waits_witness :
    actWait1.spawn = false ∧
    actionMode cfgSample actWait1 true false (some ["x".data]) = Mode.wait :=
  ⟨rfl, (c5_spawn_flag_false_waits cfgSample actWait1 true false (some ["x".data])).1 rfl⟩

/-- Claim C7, counterexample: a command containing a tab (a whitespace
character that is not a space) and not starting with `./` is invoked directly,
not through a shell, because the code only tests for the space character. -/
theorem c7_whitespace_counterexample :
    "a\tb".data.any Char.isWhitespace = true ∧
    "./".data.isPrefixOf "a\tb".data = false ∧
    classifyCommand "a\tb".data = ProgSpec.direct "a\tb".data ∧
    ProgSpec.direct "a\tb".data ≠ ProgSpec.shell "a\tb".data := by
  decide

/-- Claim C7 (amended): a final command string containing a space character
(U+0020) is always run through a shell. -/
theorem c7_space_shell (C : Str) (h : C.contains ' ' = true) :
    classifyCommand C = ProgSpec.shell C := by
  unfold classifyCommand
  have h3 : ' ' ∈ C := by simpa [List.contains] using h
  by_cases hp : "./".data.isPrefixOf C = true
  · simp [hp]
  · simp only [Bool.not_eq_true] at hp
    simp [hp, h3]

/-- Claim C7, witness: a command with a space is shell-invoked. -/
theorem c7_space_shell_witness :
    "a b".data.contains ' ' = true ∧
    classifyCommand "a b".data = ProgSpec.shell "a b".data :=
  ⟨by decide, c7_space_shell "a b".data (by decide)⟩

/-- Claim C8: with present, non-empty extra arguments the final command is the
interpolated command, one space, and the space-joined arguments in order; with
absent or empty extra arguments it is the interpolated command unchanged. -/
theorem c8_extra_args_append (cfg : Config) (act : Action) (args : List Str)
    (h : args ≠ []) :
    fullCommand cfg act (some args)
        = cfg.interpolate act.command ++ " ".data ++ joinWith " ".data args ∧
    fullCommand cfg act (some []) = cfg.interpolate act.command ∧
    fullCommand cfg act none = cfg.interpolate act.command := by
  have hisE : args.isEmpty = false := by
    cases args with
    | nil => exact absurd rfl h
    | cons x xs => rfl
  exact ⟨by simp [fullCommand, hisE], rfl, rfl⟩

/-- Claim C8, witness: one extra argument is appended after a single space. -/
theorem c8_extra_args_append_witness :
    (["--verbose".data] : List Str) ≠ [] ∧
    fullCommand cfgSample actWait1 (some ["--verbose".data])
      = cfgSample.interpolate actWait1.command ++ " ".data
          ++ joinWith " ".data ["--verbose".data] :=
  ⟨by decide,
   (c8_extra_args_append cfgSample actWait1 ["--verbose".data] (by decide)).1⟩

/-- Claim C2: if every action before position k succeeds and the action at
position k runs in wait mode and its subprocess exits with a failure status,
then `execute` returns `Err.commandFailure` carrying the fully resolved
command string (which appears verbatim in the error message), and the launch
trace covers exactly the actions up to and including the failing one — no
later action is ever started. -/
theorem c2_wait_failure_fail_fast (cfg : Config) (beh : Behavior) (pre post : List Action)
    (act : Action) (wd : Option Str) (ea : Option (List Str)) (fs fw : Bool)
    (hpre : ∀ i (hi : i < pre.length), actionOk cfg beh (pre.get ⟨i, hi⟩) ea fs fw i = true)
    (hmode : actionMode cfg act fs fw ea = Mode.wait)
    (hfail : beh.wait pre.length = WaitOutcome.exited false) :
    executeActions cfg beh (pre ++ act :: post) wd ea fs fw
      = ((pre ++ [act]).map fun a => mkLaunch cfg a wd ea fs fw,
         Except.error (Err.commandFailure (fullCommand cfg act ea))) ∧
    fullCommand cfg act ea <:+: Err.message (Err.commandFailure (fullCommand cfg act ea)) := by
  constructor
  · exact executeActionsFrom_fail_aux cfg beh pre 0 post act wd ea fs fw
      (fun i hi => by simpa using hpre i hi) hmode (by simpa using hfail)
  · exact ( List.suffix_append _ _).isInfix

/-- Claim C2, witness: in a three-action list whose second wait-mode action
fails, the runner stops after two launches and surfaces the resolved command
of the failing action. -/
theorem c2_wait_failure_fail_fast_witness :
    executeActions cfgSample behC2 ([actWait1] ++ actWait2 :: [actWait3]) none none false false
      = (([actWait1] ++ [actWait2]).map fun a => mkLaunch cfgSample a none none false false,
         Except.error (Err.commandFailure (fullCommand cfgSample actWait2 none))) ∧
    fullCommand cfgSample actWait2 none
      <:+: Err.message (Err.commandFailure (fullCommand cfgSample actWait2 none)) :=
  c2_wait_failure_fail_fast cfgSample behC2 [actWait1] [actWait3] actWait2 none none false
    false (by decide) (by decide) (by decide)

/-- Claim C6: an action in spawn mode is launched with stdin, stdout and
stderr all null (closed / discarded), it is not waited on, after a successful
spawn the runner continues directly with the remaining actions, and the only
error spawn mode can produce is a launch failure, which aborts the remaining
list. -/
theorem c6_spawn_mode_detached (cfg : Config) (beh : Behavior) (act : Action)
    (rest : List Action) (wd : Option Str) (ea : Option (List Str)) (fs fw : Bool) (k : Nat)
    (hmode : actionMode cfg act fs fw ea = Mode.spawn) :
    (mkLaunch cfg act wd ea fs fw).stdin = Stdio.null ∧
    (mkLaunch cfg act wd ea fs fw).stdout = Stdio.null ∧
    (mkLaunch cfg act wd ea fs fw).stderr = Stdio.null ∧
    (mkLaunch cfg act wd ea fs fw).waited = false ∧
    (∀ pid, beh.spawn k = SpawnOutcome.spawned pid →
      executeActionsFrom cfg beh (act :: rest) wd ea fs fw k
        = (mkLaunch cfg act wd ea fs fw
              :: (executeActionsFrom cfg beh rest wd ea fs fw (k + 1)).1,
           (executeActionsFrom cfg beh rest wd ea fs fw (k + 1)).2)) ∧
    (beh.spawn k = SpawnOutcome.spawnFail →
      executeActionsFrom cfg beh (act :: rest) wd ea fs fw k
        = ([mkLaunch cfg act wd ea fs fw],
           Except.error (Err.spawnFailure (fullCommand cfg act ea)))) := by
  have hl : mkLaunch cfg act wd ea fs fw
      = ⟨classifyCommand (fullCommand cfg act ea), wd, Stdio.null, Stdio.null, Stdio.null,
         false⟩ := by
    unfold mkLaunch
    rw [hmode]
  refine ⟨by rw [hl], by rw [hl], by rw [hl], by rw [hl], ?_, ?_⟩
  · intro pid hs
    simp [executeActionsFrom, hmode, hs]
  · intro hs
    simp [executeActionsFrom, hmode, hs]

/-- Claim C6, witness: a successful spawn continues with the remaining list;
a failed spawn aborts with `Err.spawnFailure`. -/
theorem c6_spawn_mode_detached_witness :
    (mkLaunch cfgSample actSpawn none none true false).stdin = Stdio.null ∧
    executeActionsFrom cfgSample behOk (actSpawn :: [actWait1]) none none true false 0
      = (mkLaunch cfgSample actSpawn none none true false
            :: (executeActionsFrom cfgSample behOk [actWait1] none none true false 1).1,
         (executeActionsFrom cfgSample behOk [actWait1] none none true false 1).2) ∧
    executeActionsFrom cfgSample behSpawnBad (actSpawn :: [actWait1]) none none true false 0
      = ([mkLaunch cfgSample actSpawn none none true false],
         Except.error (Err.spawnFailure (fullCommand cfgSample actSpawn none))) :=
  ⟨(c6_spawn_mode_detached cfgSample behOk actSpawn [actWait1] none none true false 0
      (by decide)).1,
   (c6_spawn_mode_detached cfgSample behOk actSpawn [actWait1] none none true false 0
      (by decide)).2.2.2.2.1 42 rfl,
   (c6_spawn_mode_detached cfgSample behSpawnBad actSpawn [actWait1] none none true false 0
      (by decide)).2.2.2.2.2 rfl⟩

theorem executeActionsFrom_some_nil (cfg : Config) (beh : Behavior) :
    ∀ (actions : List Action) (wd : Option Str) (fs fw : Bool) (k : Nat),
      executeActionsFrom cfg beh actions wd (some []) fs fw k
        = executeActionsFrom cfg beh actions wd none fs fw k := by
  intro actions
  induction actions with
  | nil => intro wd fs fw k; rfl
  | cons act rest ih =>
    intro wd fs fw k
    have hm : actionMode cfg act fs fw (some []) = actionMode cfg act fs fw none := rfl
    simp only [executeActionsFrom, hm]
    cases actionMode cfg act fs fw none with
    | spawn =>
      cases beh.spawn k with
      | spawnFail => rfl
      | spawned pid => rw [ih]; rfl
    | wait =>
      cases beh.wait k with
      | launchFail => rfl
      | exited b =>
        cases b with
        | true => rw [ih]; rfl
        | false => rfl

/-- Claim C10: supplying an empty extra-argument sequence behaves exactly like
supplying none: the runner's result and launch trace coincide, every action's
final command string is unchanged, and the spawn/wait decision is the same. -/
theorem c10_empty_extra_args (cfg : Config) (beh : Behavior) (actions : List Action)
    (wd : Option Str) (fs fw : Bool) :
    executeActions cfg beh actions wd (some []) fs fw
      = executeActions cfg beh actions wd none fs fw ∧
    (∀ act : Action, fullCommand cfg act (some []) = fullCommand cfg act none) ∧
    (∀ act : Action, actionMode cfg act fs fw (some []) = actionMode cfg act fs fw none) ∧
    shouldSpawn cfg fs fw (some []) = shouldSpawn cfg fs fw none :=
  ⟨executeActionsFrom_some_nil cfg beh actions wd fs fw 0, fun _ => rfl, fun _ => rfl, rfl⟩

/-- Claim C4, counterexample: with url value `repo.name` and name value `N`
(neither containing a placeholder token), interpolating the template
`[[[[repo.url]]]]` does not merely substitute the url value into the single
URL-token occurrence (which would give `[[repo.name]]`) — the second pass
rescans and the result is `N`, so text outside token occurrences is not left
unchanged. -/
theorem c4_interpolation_counterexample :
    cfgC4.interpolate "[[[[repo.url]]]]".data
        ≠ "[[".data ++ cfgC4.repo.url ++ "]]".data ∧
    cfgC4.interpolate "[[[[repo.url]]]]".data = "N".data := by
  decide

/-- Claim C4 (amended): interpolation is total and consists of two sequential
greedy passes: the template factors into URL-token-free chunks separated by
URL-token occurrences, each replaced by the url value with the chunks kept;
the resulting string then factors into name-token-free chunks separated by
name-token occurrences, each replaced by the name value with the chunks kept
(so unmatched tokens survive verbatim, but the second pass may consume
name-token occurrences created by the first). -/
theorem c4_interpolation_two_pass (c : Config) (T : Str) :
    ∃ uchunks nchunks : List Str,
      uchunks ≠ [] ∧
      T = joinWith urlToken uchunks ∧
      (∀ ch ∈ uchunks, ¬ urlToken <:+: ch) ∧
      replaceList urlToken c.repo.url T = joinWith c.repo.url uchunks ∧
      nchunks ≠ [] ∧
      replaceList urlToken c.repo.url T = joinWith nameToken nchunks ∧
      (∀ ch ∈ nchunks, ¬ nameToken <:+: ch) ∧
      c.interpolate T = joinWith c.repo.name nchunks := by
  obtain ⟨u, hu1, hu2, hu3, hu4⟩ := replaceList_chunks urlToken c.repo.url (by decide) T
  obtain ⟨v, hv1, hv2, hv3, hv4⟩ := replaceList_chunks nameToken c.repo.name (by decide)
    (replaceList urlToken c.repo.url T)
  exact ⟨u, v, hu1, hu2, hu3, hu4, hv1, hv2, hv3, hv4⟩

/-- Claim C9, counterexample: with metadata values free of both placeholder
tokens, interpolation is still neither idempotent (empty url value,
template `[[[[repo.url]]repo.url]]`) nor order-independent (url value
`repo.name`, template `[[[[repo.url]]]]`), because a replacement can splice
template fragments into a fresh token occurrence. -/
theorem c9_interpolation_counterexample :
    (¬ urlToken <:+: cfgC9.repo.url) ∧ (¬ nameToken <:+: cfgC9.repo.url) ∧
    (¬ urlToken <:+: cfgC9.repo.name) ∧ (¬ nameToken <:+: cfgC9.repo.name) ∧
    cfgC9.interpolate (cfgC9.interpolate "[[[[repo.url]]repo.url]]".data)
      ≠ cfgC9.interpolate "[[[[repo.url]]repo.url]]".data ∧
    (¬ urlToken <:+: cfgC4.repo.url) ∧ (¬ nameToken <:+: cfgC4.repo.url) ∧
    (¬ urlToken <:+: cfgC4.repo.name) ∧ (¬ nameToken <:+: cfgC4.repo.name) ∧
    replaceList urlToken cfgC4.repo.url
        (replaceList nameToken cfgC4.repo.name "[[[[repo.url]]]]".data)
      ≠ cfgC4.interpolate "[[[[repo.url]]]]".data := by
  decide

/-- Claim C9 (amended): when the metadata values contain no `[` character and
the template is a well-formed alternation of `[`-free literal chunks and whole
placeholder tokens, interpolation is idempotent and order-independent
(replacing the name token first and then the URL token gives the same
result). -/
theorem c9_interpolation_wellformed (c : Config) (c0 : Str) (ps : List (Tok × Str))
    (h0 : bracketFree c0) (hps : ∀ p ∈ ps, bracketFree p.2)
    (hurl : bracketFree c.repo.url) (hname : bracketFree c.repo.name) :
    c.interpolate (c.interpolate (assemble c0 ps)) = c.interpolate (assemble c0 ps) ∧
    replaceList urlToken c.repo.url
        (replaceList nameToken c.repo.name (assemble c0 ps))
      = c.interpolate (assemble c0 ps) := by
  unfold assemble
  have hA := urlPass_assemble c.repo.url ps c0 h0 hps
  have hB := namePass_after_urlPass c.repo.url c.repo.name hurl ps c0 h0 hps
  have hC := namePass_assemble c.repo.name ps c0 h0 hps
  have hD := urlPass_after_namePass c.repo.url c.repo.name hname ps c0 h0 hps
  have hI : c.interpolate (assembleWith tokStr c0 ps)
      = assembleWith (bothSubst c.repo.url c.repo.name) c0 ps := by
    show replaceList nameToken c.repo.name
        (replaceList urlToken c.repo.url (assembleWith tokStr c0 ps)) = _
    rw [hA, hB]
  have hBF : bracketFree (assembleWith (bothSubst c.repo.url c.repo.name) c0 ps) := by
    refine assembleWith_bracketFree _ ?_ ps c0 h0 hps
    intro t
    cases t with
    | url => exact hurl
    | name => exact hname
  constructor
  · rw [hI]
    show replaceList nameToken c.repo.name (replaceList urlToken c.repo.url _) = _
    rw [replaceList_id_of_bracketFree _ _ (by decide) hBF,
        replaceList_id_of_bracketFree _ _ (by decide) hBF]
  · rw [hC, hD, hI]

/-- Claim C9, witness: a realistic well-formed template with bracket-free
metadata, where interpolation is idempotent and order-independent. -/
theorem c9_interpolation_wellformed_witness :
    cfgSample.interpolate (cfgSample.interpolate
        (assemble "git clone ".data [(Tok.url, " ".data), (Tok.name, [])]))
      = cfgSample.interpolate
          (assemble "git clone ".data [(Tok.url, " ".data), (Tok.name, [])]) ∧
    replaceList urlToken cfgSample.repo.url (replaceList nameToken cfgSample.repo.name
        (assemble "git clone ".data [(Tok.url, " ".data), (Tok.name, [])]))
      = cfgSample.interpolate
          (assemble "git clone ".data [(Tok.url, " ".data), (Tok.name, [])]) :=
  c9_interpolation_wellformed cfgSample "git clone ".data
    [(Tok.url, " ".data), (Tok.name, [])] (by decide) (by decide) (by decide) (by decide)

end ToolMeister
